import Mathlib

/-!
Verification development for the `R9295/subspace` excerpt.

Part 1 embeds the keyed operation multiplexer `FarmsAddRemoveStreamMap`
(`crates/subspace-farmer/src/cluster/controller/farms.rs`); the implementation
file is absent from the excerpt (only its test file
`crates/subspace-farmer/src/cluster/controller/farms/tests.rs` is present), so
the definitions are modelled from the specification's description of the
component (§3–§4 of the spec).

Part 2 embeds `nominator_position` from
`crates/pallet-domains/src/nominator_position.rs`, with the pallet storage and
the staking arithmetic it calls into (which live outside the excerpt) as
abstract context parameters.

Part 3 embeds `get_pieces_individually` from
`shared/subspace-data-retrieval/src/piece_getter.rs`.
-/

namespace Subspace

/-- Modelled from the spec: an "operation" is a single-use asynchronous
computation producing one result of type `R` (spec §3).  The implementation
file `farms.rs` is missing from the excerpt, so an operation is modelled as a
countdown future: polling it when `remaining = 0` completes it with `result`;
polling it when `remaining > 0` makes internal progress (decrements the
counter) and suspends.  This captures every schedule in which an operation
completes after a fixed number of polls. -/
structure Op (R : Type) where
  remaining : Nat
  result : R
deriving Repr, DecidableEq

/-- Modelled from the spec: the multiplexer state is the pair of ordered maps
(active, pending) (spec §3).  Field names follow the test file
(`tests.rs`): `in_progress` is the active map (key → in-flight operation),
`farms_to_add_remove` is the pending map (key → FIFO queue).  Both are
association lists kept sorted by key with unique keys, modelling the ordered
maps the spec requires for the ascending-key tie-break. -/
structure FarmsAddRemoveStreamMap (R : Type) where
  in_progress : List (Nat × Op R)
  farms_to_add_remove : List (Nat × List (Op R))
deriving Repr, DecidableEq

namespace FarmsAddRemoveStreamMap

variable {R : Type}

/-- Modelled from the spec: the multiplexer is constructed empty (spec §3
lifecycle; `FarmsAddRemoveStreamMap::default()` in the tests). -/
def default : FarmsAddRemoveStreamMap R := ⟨[], []⟩

/-- Association-list lookup in the active map. -/
def lookupA (k : Nat) : List (Nat × Op R) → Option (Op R)
  | [] => none
  | (k', op) :: rest => if k = k' then some op else lookupA k rest

/-- Association-list lookup in the pending map. -/
def lookupP (k : Nat) : List (Nat × List (Op R)) → Option (List (Op R))
  | [] => none
  | (k', q) :: rest => if k = k' then some q else lookupP k rest

/-- Sorted insertion of a fresh key into the active map. -/
def insertActive (k : Nat) (op : Op R) : List (Nat × Op R) → List (Nat × Op R)
  | [] => [(k, op)]
  | (k', op') :: rest =>
    if k < k' then (k, op) :: (k', op') :: rest
    else (k', op') :: insertActive k op rest

/-- Append an operation to the tail of a key's pending queue, creating the
queue (at its sorted position) if absent. -/
def appendPending (k : Nat) (op : Op R) :
    List (Nat × List (Op R)) → List (Nat × List (Op R))
  | [] => [(k, [op])]
  | (k', q) :: rest =>
    if k = k' then (k', q ++ [op]) :: rest
    else if k < k' then (k, [op]) :: (k', q) :: rest
    else (k', q) :: appendPending k op rest

/-- Remove a key's entry from the pending map (identity if absent). -/
def erasePending (k : Nat) :
    List (Nat × List (Op R)) → List (Nat × List (Op R))
  | [] => []
  | (k', q) :: rest => if k = k' then rest else (k', q) :: erasePending k rest

/-- Replace a key's pending queue (identity if the key is absent). -/
def setPending (k : Nat) (q : List (Op R)) :
    List (Nat × List (Op R)) → List (Nat × List (Op R))
  | [] => []
  | (k', q') :: rest =>
    if k = k' then (k', q) :: rest else (k', q') :: setPending k q rest

/-- Modelled from the spec: `push(key, operation)` (spec §4.1).  If `key` has
no active entry the operation becomes the active entry immediately; else it is
appended to the tail of `key`'s pending queue (created if absent). -/
def push (s : FarmsAddRemoveStreamMap R) (k : Nat) (op : Op R) :
    FarmsAddRemoveStreamMap R :=
  match lookupA k s.in_progress with
  | some _ =>
    { s with farms_to_add_remove := appendPending k op s.farms_to_add_remove }
  | none => { s with in_progress := insertActive k op s.in_progress }

/-- Modelled from the spec: `is_terminated` returns true iff both the active
map and the pending map are empty (spec §4.1 `is_idle`). -/
def is_terminated (s : FarmsAddRemoveStreamMap R) : Bool :=
  s.in_progress.isEmpty && s.farms_to_add_remove.isEmpty

/-- Outcome of one ascending-order polling pass over the active map:
either the first completion (winning key, its result, the already-polled
prefix in its post-poll state, and the untouched suffix), or no completion
(every operation polled once). -/
inductive PassResult (R : Type) where
  | completed (k : Nat) (r : R) (polled : List (Nat × Op R))
      (rest : List (Nat × Op R))
  | exhausted (polled : List (Nat × Op R))
deriving Repr

/-- One poll of a not-yet-ready operation: internal progress. -/
def decOp (op : Op R) : Op R := ⟨op.remaining - 1, op.result⟩

/-- Modelled from the spec: the ascending-order polling pass of the advance
step (spec §4.1 advance, steps 2–4).  Visits active entries in list order
(the list is sorted ascending), polls each once, and stops at the first
completion; entries after the winner are not polled in this invocation. -/
def pollPass : List (Nat × Op R) → PassResult R
  | [] => .exhausted []
  | (k, op) :: rest =>
    if op.remaining = 0 then .completed k op.result [] rest
    else
      match pollPass rest with
      | .completed k' r polled rest' => .completed k' r ((k, decOp op) :: polled) rest'
      | .exhausted polled => .exhausted ((k, decOp op) :: polled)

/-- Result of one advance invocation: a completed key/result pair, the
end-of-sequence signal, or suspension. -/
inductive Poll (R : Type) where
  | ready (k : Nat) (r : R)
  | ended
  | suspended
deriving Repr, DecidableEq

/-- Modelled from the spec: completion handling of the advance step (spec
§4.1 advance, step 3).  If the winner's pending queue is non-empty its front
is installed as the new active operation (not polled in this invocation) and
the key is dropped from the pending map when the queue drains; otherwise the
key is removed from the active map entirely. -/
def handleCompletion (pending : List (Nat × List (Op R))) (k : Nat)
    (pre post : List (Nat × Op R)) :
    List (Nat × Op R) × List (Nat × List (Op R)) :=
  match lookupP k pending with
  | some (op :: restQ) =>
    (pre ++ (k, op) :: post,
     if restQ.isEmpty then erasePending k pending else setPending k restQ pending)
  | _ => (pre ++ post, erasePending k pending)

/-- Modelled from the spec: one advance invocation (`poll_next_entry` in the
tests; spec §4.1 advance).  If both maps are empty it signals end-of-sequence
without suspending; otherwise it runs the ascending polling pass, resolves the
first completion (emitting exactly one result), or suspends with every active
operation having been polled once. -/
def poll_next_entry (s : FarmsAddRemoveStreamMap R) :
    Poll R × FarmsAddRemoveStreamMap R :=
  if s.in_progress.isEmpty && s.farms_to_add_remove.isEmpty then
    (.ended, s)
  else
    match pollPass s.in_progress with
    | .completed k r pre post =>
      let ap := handleCompletion s.farms_to_add_remove k pre post
      (.ready k r, ⟨ap.1, ap.2⟩)
    | .exhausted polled => (.suspended, ⟨polled, s.farms_to_add_remove⟩)

/-- External commands driving the multiplexer: a push or one advance. -/
inductive Cmd (R : Type) where
  | push (k : Nat) (op : Op R)
  | advance

/-- The key/result pairs emitted by one advance outcome: one for `ready`,
none otherwise. -/
def yieldOf : Poll R → List (Nat × R)
  | .ready k r => [(k, r)]
  | _ => []

/-- One command step: the successor state and the (zero or one) emitted
key/result pairs. -/
def step (s : FarmsAddRemoveStreamMap R) :
    Cmd R → FarmsAddRemoveStreamMap R × List (Nat × R)
  | .push k op => (s.push k op, [])
  | .advance =>
    let p := poll_next_entry s
    (p.2, yieldOf p.1)

/-- Run a command list, collecting all emitted key/result pairs in order. -/
def run (s : FarmsAddRemoveStreamMap R) :
    List (Cmd R) → FarmsAddRemoveStreamMap R × List (Nat × R)
  | [] => (s, [])
  | c :: cs =>
    let p := step s c
    let q := run p.1 cs
    (q.1, p.2 ++ q.2)

/-- Keys of the active map. -/
def keysA (l : List (Nat × Op R)) : List Nat := l.map Prod.fst

/-- Keys of the pending map. -/
def keysP (l : List (Nat × List (Op R))) : List Nat := l.map Prod.fst

/-- All active operations stored under key `k` (a singleton or empty list in
well-formed states). -/
def opsForA (k : Nat) (l : List (Nat × Op R)) : List (Op R) :=
  (l.filter (fun p => p.1 == k)).map Prod.snd

/-- The pending queue stored under key `k` (flattening duplicates, which
well-formed states exclude). -/
def queueFor (k : Nat) (l : List (Nat × List (Op R))) : List (Op R) :=
  ((l.filter (fun p => p.1 == k)).map Prod.snd).flatten

/-- All operations currently held for key `k`: the active one (if any)
followed by the pending queue. -/
def contents (s : FarmsAddRemoveStreamMap R) (k : Nat) : List (Op R) :=
  opsForA k s.in_progress ++ queueFor k s.farms_to_add_remove

/-- Results of a list of operations. -/
def resultsOf (ops : List (Op R)) : List R := ops.map Op.result

/-- The results emitted for key `k`, in emission order. -/
def outFor (k : Nat) (out : List (Nat × R)) : List R :=
  (out.filter (fun p => p.1 == k)).map Prod.snd

/-- The operations pushed under key `k` by a command list, in push order. -/
def pushedOps (k : Nat) : List (Cmd R) → List (Op R)
  | [] => []
  | .push k' op :: cs => if k' = k then op :: pushedOps k cs else pushedOps k cs
  | .advance :: cs => pushedOps k cs

/-- Well-formedness: both maps are sorted with strictly increasing (hence
unique) keys, every pending key is active, and no pending queue is empty
(spec §3 invariants). -/
def WF (s : FarmsAddRemoveStreamMap R) : Prop :=
  List.Pairwise (· < ·) (keysA s.in_progress) ∧
  List.Pairwise (· < ·) (keysP s.farms_to_add_remove) ∧
  (∀ k ∈ keysP s.farms_to_add_remove, k ∈ keysA s.in_progress) ∧
  (∀ p ∈ s.farms_to_add_remove, p.2 ≠ [])

/-- States reachable from the empty multiplexer by pushes and advances. -/
inductive Reachable : FarmsAddRemoveStreamMap R → Prop where
  | init : Reachable default
  | push {s} (k : Nat) (op : Op R) : Reachable s → Reachable (s.push k op)
  | advance {s} : Reachable s → Reachable (poll_next_entry s).2

/-- Total number of polls remaining before the multiplexer drains: each held
operation contributes `remaining + 1`. -/
def opMeasure (op : Op R) : Nat := op.remaining + 1

/-- Poll-count measure of the active map. -/
def actSum (l : List (Nat × Op R)) : Nat :=
  (l.map (fun p => opMeasure p.2)).sum

/-- Poll-count measure of the pending map. -/
def pendSum (l : List (Nat × List (Op R))) : Nat :=
  (l.map (fun p => (p.2.map opMeasure).sum)).sum

/-- Drain measure of a state. -/
def smMeasure (s : FarmsAddRemoveStreamMap R) : Nat :=
  actSum s.in_progress + pendSum s.farms_to_add_remove

/-- Repeatedly advance `n` times, collecting emitted key/result pairs. -/
def drainN : Nat → FarmsAddRemoveStreamMap R →
    List (Nat × R) × FarmsAddRemoveStreamMap R
  | 0, s => ([], s)
  | n + 1, s =>
    match poll_next_entry s with
    | (.ready k r, s') =>
      let q := drainN n s'
      ((k, r) :: q.1, q.2)
    | (_, s') =>
      let q := drainN n s'
      (q.1, q.2)

end FarmsAddRemoveStreamMap

namespace PalletDomains

/-! Embedding of `crates/pallet-domains/src/nominator_position.rs`.  The
pallet is generic over a runtime configuration `T: Config`; balances, shares,
epoch indices and block numbers are instantiated with `Nat` (saturating
addition on these abstract unbounded quantities is plain addition).  The
pallet storage items (`Deposits`, `Operators`, `DomainStakingSummary`,
`OperatorEpochSharePrice`, `Withdrawals`) and the staking arithmetic
(`current_share_price`, `SharePrice` conversions,
`storage_fund_redeem_price`), which live outside the excerpt, are abstract
parameters collected in a `Ctx`. -/

abbrev Balance := Nat
abbrev Share := Nat
abbrev EpochIndex := Nat
abbrev DomainBlockNumber := Nat
abbrev OperatorId := Nat
abbrev AccountId := Nat
abbrev DomainId := Nat

/-- The known part of a nominator's deposit (`staking::KnownDeposit`). -/
structure KnownDeposit where
  shares : Share
  storage_fee_deposit : Balance

/-- A `(DomainId, EpochIndex)` pair (`DomainEpoch::deconstruct`). -/
structure DomainEpoch where
  domain_id : DomainId
  epoch : EpochIndex
deriving DecidableEq

/-- The pending part of a nominator's deposit (`staking::PendingDeposit`). -/
structure PendingDepositRec where
  effective_domain_epoch : DomainEpoch
  amount : Balance
  storage_fee_deposit : Balance

/-- A nominator's deposit record (`staking::Deposit`). -/
structure Deposit where
  known : KnownDeposit
  pending : Option PendingDepositRec

/-- The parts of `staking::Operator` read by `nominator_position`. -/
structure Operator where
  current_domain_id : DomainId
  current_total_shares : Share
  total_storage_fee_deposit : Balance

/-- The part of `staking::StakingSummary` read by `nominator_position`. -/
structure StakingSummary where
  current_epoch_index : EpochIndex

/-- A share price, abstracted to its two conversion functions
(`SharePrice::shares_to_stake` and `SharePrice::stake_to_shares`). -/
structure SharePrice where
  shares_to_stake : Share → Balance
  stake_to_shares : Balance → Share

/-- A storage-fund redeem price, abstracted to its `redeem` function. -/
structure StorageFundRedeemPrice where
  redeem : Balance → Balance

/-- A withdrawal still denominated in shares
(`staking::WithdrawalInShares`). -/
structure WithdrawalInShares where
  domain_epoch : DomainEpoch
  shares : Share
  unlock_at_confirmed_domain_block_number : DomainBlockNumber

/-- A regular unlocking withdrawal entry (`staking::WithdrawalInBalance`). -/
structure WithdrawalRec where
  amount_to_unlock : Balance
  unlock_at_confirmed_domain_block_number : DomainBlockNumber

/-- A nominator's withdrawal record (`staking::Withdrawal`). -/
structure Withdrawal where
  withdrawals : List WithdrawalRec
  withdrawal_in_shares : Option WithdrawalInShares

/-- Output pending deposit (`sp_domains::PendingDeposit`). -/
structure PendingDeposit where
  amount : Balance
  effective_epoch : EpochIndex
deriving DecidableEq

/-- Output pending withdrawal (`sp_domains::PendingWithdrawal`). -/
structure PendingWithdrawal where
  amount : Balance
  unlock_at_block : DomainBlockNumber
deriving DecidableEq

/-- Output storage-fee deposit summary (`sp_domains::StorageFeeDeposit`). -/
structure StorageFeeDeposit where
  total_deposited : Balance
  current_value : Balance
deriving DecidableEq

/-- Output position (`sp_domains::NominatorPosition`). -/
structure NominatorPosition where
  current_staked_value : Balance
  storage_fee_deposit : StorageFeeDeposit
  pending_deposits : List PendingDeposit
  pending_withdrawals : List PendingWithdrawal
deriving DecidableEq

/-- Abstract runtime context: the pallet storage maps and the staking
arithmetic functions `nominator_position.rs` calls into. -/
structure Ctx where
  deposits : OperatorId → AccountId → Option Deposit
  operators : OperatorId → Option Operator
  domainStakingSummary : DomainId → Option StakingSummary
  current_share_price : OperatorId → Operator → StakingSummary → Except Unit SharePrice
  operatorEpochSharePrice : OperatorId → DomainEpoch → Option SharePrice
  withdrawalsStorage : OperatorId → AccountId → Option Withdrawal
  storage_fund_redeem_price : OperatorId → Balance → StorageFundRedeemPrice

/-- Core data needed for nominator position calculation (`PositionData`). -/
structure PositionData where
  deposit : Deposit
  operator : Operator
  current_epoch_index : EpochIndex
  current_share_price : SharePrice

/-- `fetch_position_data`: fetches and validates the core data, with the
source's early returns (`?` on the three storage reads, `.ok()?` on the share
price, and the explicit `current_total_shares.is_zero()` check). -/
def fetch_position_data (ctx : Ctx) (operator_id : OperatorId)
    (nominator_account : AccountId) : Option PositionData := do
  let deposit ← ctx.deposits operator_id nominator_account
  let operator ← ctx.operators operator_id
  let domain_id := operator.current_domain_id
  let staking_summary ← ctx.domainStakingSummary domain_id
  let current_epoch_index := staking_summary.current_epoch_index
  let current_share_price ←
    (ctx.current_share_price operator_id operator staking_summary).toOption
  if operator.current_total_shares = 0 then
    none
  else
    some ⟨deposit, operator, current_epoch_index, current_share_price⟩

/-- `process_deposits`: total shares, total storage fee, and the pending
deposits not yet converted to shares. -/
def process_deposits (ctx : Ctx) (position_data : PositionData)
    (operator_id : OperatorId) :
    Share × Balance × List PendingDeposit :=
  let total_shares := position_data.deposit.known.shares
  let total_storage_fee_deposit := position_data.deposit.known.storage_fee_deposit
  match position_data.deposit.pending with
  | none => (total_shares, total_storage_fee_deposit, [])
  | some pending_deposit =>
    let total_storage_fee_deposit :=
      total_storage_fee_deposit + pending_deposit.storage_fee_deposit
    let effective_epoch := pending_deposit.effective_domain_epoch.epoch
    if effective_epoch < position_data.current_epoch_index then
      match ctx.operatorEpochSharePrice operator_id
          pending_deposit.effective_domain_epoch with
      | some epoch_share_price =>
        (total_shares + epoch_share_price.stake_to_shares pending_deposit.amount,
         total_storage_fee_deposit, [])
      | none =>
        (total_shares, total_storage_fee_deposit,
         [⟨pending_deposit.amount, effective_epoch⟩])
    else
      (total_shares, total_storage_fee_deposit,
       [⟨pending_deposit.amount, effective_epoch⟩])

/-- `calculate_adjusted_storage_fee`: redeem the nominator's storage fee at
the fund's current redeem price. -/
def calculate_adjusted_storage_fee (ctx : Ctx) (operator_id : OperatorId)
    (operator_total_storage_fee : Balance) (nominator_storage_fee : Balance) :
    Balance :=
  (ctx.storage_fund_redeem_price operator_id operator_total_storage_fee).redeem
    nominator_storage_fee

/-- `process_withdrawals`: the nominator's pending withdrawals, regular ones
first, then the in-shares one valued at the epoch share price when recorded,
falling back to the current share price. -/
def process_withdrawals (ctx : Ctx) (operator_id : OperatorId)
    (nominator_account : AccountId) (current_share_price : SharePrice) :
    List PendingWithdrawal :=
  match ctx.withdrawalsStorage operator_id nominator_account with
  | none => []
  | some withdrawal =>
    let regular := withdrawal.withdrawals.map fun w =>
      PendingWithdrawal.mk w.amount_to_unlock
        w.unlock_at_confirmed_domain_block_number
    match withdrawal.withdrawal_in_shares with
    | none => regular
    | some withdrawal_in_shares =>
      let withdrawal_amount :=
        match ctx.operatorEpochSharePrice operator_id
            withdrawal_in_shares.domain_epoch with
        | some epoch_share_price =>
          epoch_share_price.shares_to_stake withdrawal_in_shares.shares
        | none => current_share_price.shares_to_stake withdrawal_in_shares.shares
      regular ++
        [⟨withdrawal_amount,
          withdrawal_in_shares.unlock_at_confirmed_domain_block_number⟩]

/-- `nominator_position`: the complete nominator position, `none` exactly
when `fetch_position_data` fails. -/
def nominator_position (ctx : Ctx) (operator_id : OperatorId)
    (nominator_account : AccountId) : Option NominatorPosition := do
  let position_data ← fetch_position_data ctx operator_id nominator_account
  let pd := process_deposits ctx position_data operator_id
  let total_shares := pd.1
  let total_storage_fee_deposit := pd.2.1
  let pending_deposits := pd.2.2
  let current_staked_value :=
    position_data.current_share_price.shares_to_stake total_shares
  let adjusted_storage_fee_deposit :=
    calculate_adjusted_storage_fee ctx operator_id
      position_data.operator.total_storage_fee_deposit total_storage_fee_deposit
  let pending_withdrawals :=
    process_withdrawals ctx operator_id nominator_account
      position_data.current_share_price
  some ⟨current_staked_value,
    ⟨total_storage_fee_deposit, adjusted_storage_fee_deposit⟩,
    pending_deposits, pending_withdrawals⟩

end PalletDomains

namespace DataRetrieval

/-! Embedding of `get_pieces_individually` from
`shared/subspace-data-retrieval/src/piece_getter.rs`.  `Piece` is an abstract
type parameter; `anyhow::Error` is modelled as `String`; the produced stream
is modelled as the list of the items it yields in order. -/

abbrev PieceIndex := Nat

/-- Result of fetching one piece: `anyhow::Result<Option<Piece>>`. -/
abbrev PieceResult (Piece : Type) := Except String (Option Piece)

/-- The `stream::iter(xs).then(f)` combinator: yields `f x` for each `x` of
`xs`, in order. -/
def streamIterThen {α β : Type} (xs : List α) (f : α → β) : List β :=
  match xs with
  | [] => []
  | x :: rest => f x :: streamIterThen rest f

/-- `get_pieces_individually`: wraps each input index with the result of
`get_piece` on it, as a stream, always returning `Ok`. -/
def get_pieces_individually {Piece : Type}
    (get_piece : PieceIndex → PieceResult Piece)
    (piece_indices : List PieceIndex) :
    Except String (List (PieceIndex × PieceResult Piece)) :=
  Except.ok (streamIterThen piece_indices
    (fun piece_index => (piece_index, get_piece piece_index)))

end DataRetrieval

end Subspace

/-! ## Lemmas about the multiplexer's association-list operations -/

namespace Subspace.FarmsAddRemoveStreamMap

variable {R : Type}

theorem lookupA_eq_none_iff {k : Nat} {l : List (Nat × Op R)} :
    lookupA k l = none ↔ k ∉ keysA l := by
  induction l with
  | nil => simp [lookupA, keysA]
  | cons p rest ih =>
    obtain ⟨k', op⟩ := p
    by_cases h : k = k' <;> simp [lookupA, keysA, h] at ih ⊢
    simp [ih]

theorem lookupA_mem {k : Nat} {op : Op R} {l : List (Nat × Op R)}
    (h : lookupA k l = some op) : (k, op) ∈ l := by
  induction l with
  | nil => simp [lookupA] at h
  | cons p rest ih =>
    obtain ⟨k', op'⟩ := p
    by_cases hk : k = k'
    · subst hk
      simp [lookupA] at h
      simp [h]
    · simp [lookupA, hk] at h
      exact List.mem_cons_of_mem _ (ih h)

theorem lookupP_eq_none_iff {k : Nat} {l : List (Nat × List (Op R))} :
    lookupP k l = none ↔ k ∉ keysP l := by
  induction l with
  | nil => simp [lookupP, keysP]
  | cons p rest ih =>
    obtain ⟨k', q⟩ := p
    by_cases h : k = k' <;> simp [lookupP, keysP, h] at ih ⊢
    simp [ih]

theorem lookupP_mem {k : Nat} {q : List (Op R)} {l : List (Nat × List (Op R))}
    (h : lookupP k l = some q) : (k, q) ∈ l := by
  induction l with
  | nil => simp [lookupP] at h
  | cons p rest ih =>
    obtain ⟨k', q'⟩ := p
    by_cases hk : k = k'
    · subst hk
      simp [lookupP] at h
      simp [h]
    · simp [lookupP, hk] at h
      exact List.mem_cons_of_mem _ (ih h)

theorem opsForA_nil {k : Nat} : opsForA k ([] : List (Nat × Op R)) = [] := rfl

theorem opsForA_cons_self {k : Nat} {op : Op R} {l : List (Nat × Op R)} :
    opsForA k ((k, op) :: l) = op :: opsForA k l := by
  simp [opsForA]

theorem opsForA_cons_ne {k k' : Nat} {op : Op R} {l : List (Nat × Op R)}
    (h : k' ≠ k) : opsForA k ((k', op) :: l) = opsForA k l := by
  simp [opsForA, h]

theorem opsForA_append {k : Nat} {l₁ l₂ : List (Nat × Op R)} :
    opsForA k (l₁ ++ l₂) = opsForA k l₁ ++ opsForA k l₂ := by
  simp [opsForA, List.filter_append]

theorem opsForA_eq_nil_of_not_mem {k : Nat} {l : List (Nat × Op R)}
    (h : k ∉ keysA l) : opsForA k l = [] := by
  induction l with
  | nil => rfl
  | cons p rest ih =>
    obtain ⟨k', op⟩ := p
    simp [keysA] at h
    rw [opsForA_cons_ne (fun he => h.1 he.symm)]
    exact ih (by simp [keysA, h.2])

theorem queueFor_nil {k : Nat} : queueFor k ([] : List (Nat × List (Op R))) = [] := rfl

theorem queueFor_cons_self {k : Nat} {q : List (Op R)} {l : List (Nat × List (Op R))} :
    queueFor k ((k, q) :: l) = q ++ queueFor k l := by
  simp [queueFor]

theorem queueFor_cons_ne {k k' : Nat} {q : List (Op R)} {l : List (Nat × List (Op R))}
    (h : k' ≠ k) : queueFor k ((k', q) :: l) = queueFor k l := by
  simp [queueFor, h]

theorem queueFor_eq_nil_of_not_mem {k : Nat} {l : List (Nat × List (Op R))}
    (h : k ∉ keysP l) : queueFor k l = [] := by
  induction l with
  | nil => rfl
  | cons p rest ih =>
    obtain ⟨k', q⟩ := p
    simp [keysP] at h
    rw [queueFor_cons_ne (fun he => h.1 he.symm)]
    exact ih (by simp [keysP, h.2])

theorem outFor_nil {k : Nat} : outFor k ([] : List (Nat × R)) = [] := rfl

theorem outFor_append {k : Nat} {l₁ l₂ : List (Nat × R)} :
    outFor k (l₁ ++ l₂) = outFor k l₁ ++ outFor k l₂ := by
  simp [outFor, List.filter_append]

theorem outFor_single_self {k : Nat} {r : R} :
    outFor k [(k, r)] = [r] := by
  simp [outFor]

theorem outFor_single_ne {k k' : Nat} {r : R} (h : k' ≠ k) :
    outFor k [(k', r)] = [] := by
  simp [outFor, h]

theorem keysA_nil : keysA ([] : List (Nat × Op R)) = [] := rfl

theorem keysA_cons {k : Nat} {op : Op R} {l : List (Nat × Op R)} :
    keysA ((k, op) :: l) = k :: keysA l := rfl

theorem keysA_append {l₁ l₂ : List (Nat × Op R)} :
    keysA (l₁ ++ l₂) = keysA l₁ ++ keysA l₂ := by
  simp [keysA]

theorem keysP_nil : keysP ([] : List (Nat × List (Op R))) = [] := rfl

theorem keysP_cons {k : Nat} {q : List (Op R)} {l : List (Nat × List (Op R))} :
    keysP ((k, q) :: l) = k :: keysP l := rfl

theorem mem_keysA_insertActive {x k : Nat} {op : Op R} {l : List (Nat × Op R)} :
    x ∈ keysA (insertActive k op l) ↔ x = k ∨ x ∈ keysA l := by
  induction l with
  | nil => simp [insertActive, keysA]
  | cons p rest ih =>
    obtain ⟨k', op'⟩ := p
    by_cases h : k < k'
    · rw [insertActive, if_pos h, keysA_cons, keysA_cons]
      simp
    · rw [insertActive, if_neg h, keysA_cons, keysA_cons]
      simp only [List.mem_cons, ih]
      tauto

theorem pairwise_keysA_insertActive {k : Nat} {op : Op R} {l : List (Nat × Op R)}
    (hs : List.Pairwise (· < ·) (keysA l)) (hk : k ∉ keysA l) :
    List.Pairwise (· < ·) (keysA (insertActive k op l)) := by
  induction l with
  | nil => simp [insertActive, keysA]
  | cons p rest ih =>
    obtain ⟨k', op'⟩ := p
    rw [keysA_cons, List.pairwise_cons] at hs
    rw [keysA_cons, List.mem_cons] at hk
    push_neg at hk
    by_cases h : k < k'
    · rw [insertActive, if_pos h, keysA_cons, List.pairwise_cons]
      refine ⟨?_, by rw [keysA_cons, List.pairwise_cons]; exact hs⟩
      intro a ha
      rw [keysA_cons, List.mem_cons] at ha
      rcases ha with rfl | ha
      · exact h
      · exact h.trans (hs.1 a ha)
    · have hk' : k' < k := by omega
      rw [insertActive, if_neg h, keysA_cons, List.pairwise_cons]
      constructor
      · intro a ha
        rcases mem_keysA_insertActive.1 ha with rfl | ha
        · exact hk'
        · exact hs.1 a ha
      · exact ih hs.2 hk.2

theorem opsForA_insertActive_self {k : Nat} {op : Op R} {l : List (Nat × Op R)}
    (hk : k ∉ keysA l) : opsForA k (insertActive k op l) = [op] := by
  induction l with
  | nil => simp [insertActive, opsForA]
  | cons p rest ih =>
    obtain ⟨k', op'⟩ := p
    rw [keysA_cons, List.mem_cons] at hk
    push_neg at hk
    by_cases h : k < k'
    · rw [insertActive, if_pos h, opsForA_cons_self,
        opsForA_eq_nil_of_not_mem (by rw [keysA_cons, List.mem_cons]; push_neg; exact hk)]
    · rw [insertActive, if_neg h, opsForA_cons_ne (fun he => hk.1 he.symm)]
      exact ih hk.2

theorem opsForA_insertActive_ne {k k' : Nat} {op : Op R} {l : List (Nat × Op R)}
    (h : k' ≠ k) : opsForA k (insertActive k' op l) = opsForA k l := by
  induction l with
  | nil => simp [insertActive, opsForA, h]
  | cons p rest ih =>
    obtain ⟨k'', op'⟩ := p
    by_cases hlt : k' < k''
    · rw [insertActive, if_pos hlt, opsForA_cons_ne h]
    · rw [insertActive, if_neg hlt]
      by_cases he : k'' = k
      · subst he
        rw [opsForA_cons_self, opsForA_cons_self, ih]
      · rw [opsForA_cons_ne he, opsForA_cons_ne he, ih]

theorem lookupA_insertActive_self {k : Nat} {op : Op R} {l : List (Nat × Op R)}
    (hk : k ∉ keysA l) : lookupA k (insertActive k op l) = some op := by
  induction l with
  | nil => simp [insertActive, lookupA]
  | cons p rest ih =>
    obtain ⟨k', op'⟩ := p
    rw [keysA_cons, List.mem_cons] at hk
    push_neg at hk
    by_cases h : k < k'
    · simp [insertActive, h, lookupA]
    · simp [insertActive, h, lookupA, hk.1]
      exact ih hk.2

theorem mem_keysP_appendPending {x k : Nat} {op : Op R} {l : List (Nat × List (Op R))} :
    x ∈ keysP (appendPending k op l) ↔ x = k ∨ x ∈ keysP l := by
  induction l with
  | nil => simp [appendPending, keysP]
  | cons p rest ih =>
    obtain ⟨k', q⟩ := p
    by_cases he : k = k'
    · subst he
      rw [appendPending, if_pos rfl, keysP_cons, keysP_cons]
      simp only [List.mem_cons]
      tauto
    · by_cases h : k < k'
      · rw [appendPending, if_neg he, if_pos h, keysP_cons, keysP_cons]
        simp
      · rw [appendPending, if_neg he, if_neg h, keysP_cons, keysP_cons]
        simp only [List.mem_cons, ih]
        tauto

theorem pairwise_keysP_appendPending {k : Nat} {op : Op R} {l : List (Nat × List (Op R))}
    (hs : List.Pairwise (· < ·) (keysP l)) :
    List.Pairwise (· < ·) (keysP (appendPending k op l)) := by
  induction l with
  | nil => simp [appendPending, keysP]
  | cons p rest ih =>
    obtain ⟨k', q⟩ := p
    rw [keysP_cons, List.pairwise_cons] at hs
    by_cases he : k = k'
    · subst he
      rw [appendPending, if_pos rfl, keysP_cons, List.pairwise_cons]
      exact hs
    · by_cases h : k < k'
      · rw [appendPending, if_neg he, if_pos h, keysP_cons, List.pairwise_cons]
        refine ⟨?_, by rw [keysP_cons, List.pairwise_cons]; exact hs⟩
        intro a ha
        rw [keysP_cons, List.mem_cons] at ha
        rcases ha with rfl | ha
        · exact h
        · exact h.trans (hs.1 a ha)
      · have hk' : k' < k := by omega
        rw [appendPending, if_neg he, if_neg h, keysP_cons, List.pairwise_cons]
        constructor
        · intro a ha
          rcases mem_keysP_appendPending.1 ha with rfl | ha
          · exact hk'
          · exact hs.1 a ha
        · exact ih hs.2

theorem queueFor_appendPending_self {k : Nat} {op : Op R} {l : List (Nat × List (Op R))}
    (hs : List.Pairwise (· < ·) (keysP l)) :
    queueFor k (appendPending k op l) = queueFor k l ++ [op] := by
  induction l with
  | nil => simp [appendPending, queueFor]
  | cons p rest ih =>
    obtain ⟨k', q⟩ := p
    rw [keysP_cons, List.pairwise_cons] at hs
    by_cases he : k = k'
    · subst he
      have hrest : k ∉ keysP rest := fun hm => lt_irrefl k (hs.1 k hm)
      rw [appendPending, if_pos rfl, queueFor_cons_self, queueFor_cons_self,
        queueFor_eq_nil_of_not_mem hrest]
      simp
    · by_cases h : k < k'
      · have hrest : k ∉ keysP rest := fun hm => absurd (h.trans (hs.1 k hm)) (lt_irrefl k)
        rw [appendPending, if_neg he, if_pos h, queueFor_cons_self,
          queueFor_cons_ne (fun hh => he hh.symm), queueFor_eq_nil_of_not_mem hrest]
        simp [queueFor_eq_nil_of_not_mem hrest]
      · rw [appendPending, if_neg he, if_neg h,
          queueFor_cons_ne (fun hh => he hh.symm),
          queueFor_cons_ne (fun hh => he hh.symm)]
        exact ih hs.2

theorem queueFor_appendPending_ne {k k' : Nat} {op : Op R} {l : List (Nat × List (Op R))}
    (hne : k' ≠ k) : queueFor k (appendPending k' op l) = queueFor k l := by
  induction l with
  | nil => simp [appendPending, queueFor, hne]
  | cons p rest ih =>
    obtain ⟨k'', q⟩ := p
    by_cases he : k' = k''
    · subst he
      rw [appendPending, if_pos rfl, queueFor_cons_ne hne, queueFor_cons_ne hne]
    · by_cases h : k' < k''
      · rw [appendPending, if_neg he, if_pos h, queueFor_cons_ne hne]
      · by_cases he2 : k'' = k
        · subst he2
          rw [appendPending, if_neg he, if_neg h, queueFor_cons_self,
            queueFor_cons_self, ih]
        · rw [appendPending, if_neg he, if_neg h, queueFor_cons_ne he2,
            queueFor_cons_ne he2, ih]

theorem erasePending_sublist {k : Nat} (l : List (Nat × List (Op R))) :
    (erasePending k l).Sublist l := by
  induction l with
  | nil => simp [erasePending]
  | cons p rest ih =>
    obtain ⟨k', q⟩ := p
    by_cases h : k = k'
    · rw [erasePending, if_pos h]
      exact (List.sublist_cons_self _ _)
    · rw [erasePending, if_neg h]
      exact ih.cons₂ _

theorem pairwise_keysP_erasePending {k : Nat} {l : List (Nat × List (Op R))}
    (hs : List.Pairwise (· < ·) (keysP l)) :
    List.Pairwise (· < ·) (keysP (erasePending k l)) :=
  hs.sublist ((erasePending_sublist l).map Prod.fst)

theorem mem_keysP_erasePending {x k : Nat} {l : List (Nat × List (Op R))}
    (h : x ∈ keysP (erasePending k l)) : x ∈ keysP l :=
  ((erasePending_sublist l).map Prod.fst).mem h

theorem erasePending_of_not_mem {k : Nat} {l : List (Nat × List (Op R))}
    (h : k ∉ keysP l) : erasePending k l = l := by
  induction l with
  | nil => rfl
  | cons p rest ih =>
    obtain ⟨k', q⟩ := p
    rw [keysP_cons, List.mem_cons] at h
    push_neg at h
    rw [erasePending, if_neg h.1, ih h.2]

theorem not_mem_keysP_erasePending_self {k : Nat} {l : List (Nat × List (Op R))}
    (hs : List.Pairwise (· < ·) (keysP l)) : k ∉ keysP (erasePending k l) := by
  induction l with
  | nil => simp [erasePending, keysP]
  | cons p rest ih =>
    obtain ⟨k', q⟩ := p
    rw [keysP_cons, List.pairwise_cons] at hs
    by_cases h : k = k'
    · subst h
      rw [erasePending, if_pos rfl]
      exact fun hm => lt_irrefl k (hs.1 k hm)
    · rw [erasePending, if_neg h, keysP_cons, List.mem_cons]
      push_neg
      exact ⟨h, ih hs.2⟩

theorem queueFor_erasePending_ne {k k' : Nat} {l : List (Nat × List (Op R))}
    (h : k' ≠ k) : queueFor k (erasePending k' l) = queueFor k l := by
  induction l with
  | nil => rfl
  | cons p rest ih =>
    obtain ⟨k'', q⟩ := p
    by_cases he : k' = k''
    · subst he
      rw [erasePending, if_pos rfl, queueFor_cons_ne h]
    · by_cases he2 : k'' = k
      · subst he2
        rw [erasePending, if_neg he, queueFor_cons_self, queueFor_cons_self, ih]
      · rw [erasePending, if_neg he, queueFor_cons_ne he2, queueFor_cons_ne he2, ih]

theorem keysP_setPending {k : Nat} {q : List (Op R)} {l : List (Nat × List (Op R))} :
    keysP (setPending k q l) = keysP l := by
  induction l with
  | nil => rfl
  | cons p rest ih =>
    obtain ⟨k', q'⟩ := p
    by_cases h : k = k'
    · rw [setPending, if_pos h, keysP_cons, keysP_cons]
    · rw [setPending, if_neg h, keysP_cons, keysP_cons, ih]

theorem queueFor_setPending_self {k : Nat} {q : List (Op R)} {l : List (Nat × List (Op R))}
    (hs : List.Pairwise (· < ·) (keysP l)) (hm : k ∈ keysP l) :
    queueFor k (setPending k q l) = q := by
  induction l with
  | nil => simp [keysP] at hm
  | cons p rest ih =>
    obtain ⟨k', q'⟩ := p
    rw [keysP_cons, List.pairwise_cons] at hs
    rw [keysP_cons, List.mem_cons] at hm
    by_cases h : k = k'
    · subst h
      have hrest : k ∉ keysP rest := fun hmm => lt_irrefl k (hs.1 k hmm)
      rw [setPending, if_pos rfl, queueFor_cons_self,
        queueFor_eq_nil_of_not_mem hrest, List.append_nil]
    · rw [setPending, if_neg h, queueFor_cons_ne (fun hh => h hh.symm)]
      exact ih hs.2 (hm.resolve_left h)

theorem queueFor_setPending_ne {k k' : Nat} {q : List (Op R)}
    {l : List (Nat × List (Op R))} (h : k' ≠ k) :
    queueFor k (setPending k' q l) = queueFor k l := by
  induction l with
  | nil => rfl
  | cons p rest ih =>
    obtain ⟨k'', q'⟩ := p
    by_cases he : k' = k''
    · subst he
      rw [setPending, if_pos rfl, queueFor_cons_ne h, queueFor_cons_ne h]
    · by_cases he2 : k'' = k
      · subst he2
        rw [setPending, if_neg he, queueFor_cons_self, queueFor_cons_self, ih]
      · rw [setPending, if_neg he, queueFor_cons_ne he2, queueFor_cons_ne he2, ih]

theorem mem_setPending {p : Nat × List (Op R)} {k : Nat} {q : List (Op R)}
    {l : List (Nat × List (Op R))} (h : p ∈ setPending k q l) :
    p ∈ l ∨ p.2 = q := by
  induction l with
  | nil => simp [setPending] at h
  | cons hd rest ih =>
    obtain ⟨k', q'⟩ := hd
    by_cases he : k = k'
    · rw [setPending, if_pos he] at h
      rcases List.mem_cons.1 h with rfl | h
      · right; rfl
      · left; exact List.mem_cons_of_mem _ h
    · rw [setPending, if_neg he] at h
      rcases List.mem_cons.1 h with rfl | h
      · left; exact List.mem_cons_self _ _
      · rcases ih h with h | h
        · left; exact List.mem_cons_of_mem _ h
        · right; exact h

theorem queueFor_eq_of_lookupP {k : Nat} {q : List (Op R)} {l : List (Nat × List (Op R))}
    (hs : List.Pairwise (· < ·) (keysP l)) (h : lookupP k l = some q) :
    queueFor k l = q := by
  induction l with
  | nil => simp [lookupP] at h
  | cons p rest ih =>
    obtain ⟨k', q'⟩ := p
    rw [keysP_cons, List.pairwise_cons] at hs
    by_cases he : k = k'
    · subst he
      rw [lookupP, if_pos rfl] at h
      cases h
      have hrest : k ∉ keysP rest := fun hmm => lt_irrefl k (hs.1 k hmm)
      rw [queueFor_cons_self, queueFor_eq_nil_of_not_mem hrest, List.append_nil]
    · rw [lookupP, if_neg he] at h
      rw [queueFor_cons_ne (fun hh => he hh.symm)]
      exact ih hs.2 h

theorem opsForA_eq_of_lookupA {k : Nat} {op : Op R} {l : List (Nat × Op R)}
    (hs : List.Pairwise (· < ·) (keysA l)) (h : lookupA k l = some op) :
    opsForA k l = [op] := by
  induction l with
  | nil => simp [lookupA] at h
  | cons p rest ih =>
    obtain ⟨k', op'⟩ := p
    rw [keysA_cons, List.pairwise_cons] at hs
    by_cases he : k = k'
    · subst he
      rw [lookupA, if_pos rfl] at h
      cases h
      have hrest : k ∉ keysA rest := fun hmm => lt_irrefl k (hs.1 k hmm)
      rw [opsForA_cons_self, opsForA_eq_nil_of_not_mem hrest]
    · rw [lookupA, if_neg he] at h
      rw [opsForA_cons_ne (fun hh => he hh.symm)]
      exact ih hs.2 h

theorem nonempty_appendPending {k : Nat} {op : Op R} {l : List (Nat × List (Op R))}
    (h : ∀ p ∈ l, p.2 ≠ []) : ∀ p ∈ appendPending k op l, p.2 ≠ [] := by
  induction l with
  | nil =>
    intro p hp
    simp [appendPending] at hp
    subst hp
    simp
  | cons hd rest ih =>
    obtain ⟨k', q⟩ := hd
    intro p hp
    simp at h
    by_cases he : k = k'
    · subst he
      rw [appendPending, if_pos rfl] at hp
      rcases List.mem_cons.1 hp with rfl | hp
      · simp
      · exact h.2 p.1 p.2 hp
    · by_cases hlt : k < k'
      · rw [appendPending, if_neg he, if_pos hlt] at hp
        rcases List.mem_cons.1 hp with rfl | hp
        · simp
        · rcases List.mem_cons.1 hp with rfl | hp
          · exact h.1
          · exact h.2 p.1 p.2 hp
      · rw [appendPending, if_neg he, if_neg hlt] at hp
        rcases List.mem_cons.1 hp with rfl | hp
        · exact h.1
        · exact ih (fun a ha => h.2 a.1 a.2 (by simpa using ha)) p hp

theorem keysA_map_dec {l : List (Nat × Op R)} :
    keysA (l.map (fun p => (p.1, decOp p.2))) = keysA l := by
  simp [keysA]

theorem opsForA_map_dec {k : Nat} {l : List (Nat × Op R)} :
    opsForA k (l.map (fun p => (p.1, decOp p.2))) = (opsForA k l).map decOp := by
  induction l with
  | nil => rfl
  | cons p rest ih =>
    obtain ⟨k', op⟩ := p
    by_cases h : k' = k
    · subst h
      simp only [List.map_cons, opsForA_cons_self, ih, List.map_cons]
    · simp only [List.map_cons, opsForA_cons_ne h, ih]

theorem resultsOf_map_dec {ops : List (Op R)} :
    resultsOf (ops.map decOp) = resultsOf ops := by
  simp [resultsOf, decOp, Function.comp, Op.result]

theorem pollPass_completed_eq {l : List (Nat × Op R)} {k : Nat} {r : R}
    {pre post : List (Nat × Op R)}
    (h : pollPass l = .completed k r pre post) :
    ∃ pre₀, l = pre₀ ++ (k, Op.mk 0 r) :: post ∧
      pre = pre₀.map (fun p => (p.1, decOp p.2)) ∧
      ∀ p ∈ pre₀, p.2.remaining ≠ 0 := by
  induction l generalizing pre with
  | nil => simp [pollPass] at h
  | cons p rest ih =>
    obtain ⟨k₀, op⟩ := p
    by_cases h0 : op.remaining = 0
    · rw [pollPass, if_pos h0] at h
      cases h
      refine ⟨[], ?_, rfl, by simp⟩
      have : op = Op.mk 0 op.result := by
        cases op
        simp at h0
        simp [h0]
      simp [← this]
    · rw [pollPass, if_neg h0] at h
      cases hrec : pollPass rest with
      | completed k' r' polled rest' =>
        rw [hrec] at h
        cases h
        obtain ⟨pre₀, hl, hpre, hrem⟩ := ih hrec
        refine ⟨(k₀, op) :: pre₀, by simp [hl], by simp [hpre], ?_⟩
        intro p hp
        rcases List.mem_cons.1 hp with rfl | hp
        · exact h0
        · exact hrem p hp
      | exhausted polled =>
        rw [hrec] at h
        cases h

theorem pollPass_exhausted_eq {l : List (Nat × Op R)} {polled : List (Nat × Op R)}
    (h : pollPass l = .exhausted polled) :
    polled = l.map (fun p => (p.1, decOp p.2)) ∧ ∀ p ∈ l, p.2.remaining ≠ 0 := by
  induction l generalizing polled with
  | nil =>
    rw [pollPass] at h
    cases h
    simp
  | cons p rest ih =>
    obtain ⟨k₀, op⟩ := p
    by_cases h0 : op.remaining = 0
    · rw [pollPass, if_pos h0] at h
      cases h
    · rw [pollPass, if_neg h0] at h
      cases hrec : pollPass rest with
      | completed k' r' polled' rest' =>
        rw [hrec] at h
        cases h
      | exhausted polled' =>
        rw [hrec] at h
        cases h
        obtain ⟨hp, hrem⟩ := ih hrec
        refine ⟨by simp [hp], ?_⟩
        intro p hp'
        rcases List.mem_cons.1 hp' with rfl | hp'
        · exact h0
        · exact hrem p hp'

theorem mem_keysA_of_lookupA {k : Nat} {op : Op R} {l : List (Nat × Op R)}
    (h : lookupA k l = some op) : k ∈ keysA l :=
  List.mem_map.2 ⟨(k, op), lookupA_mem h, rfl⟩

theorem mem_keysP_of_lookupP {k : Nat} {q : List (Op R)} {l : List (Nat × List (Op R))}
    (h : lookupP k l = some q) : k ∈ keysP l :=
  List.mem_map.2 ⟨(k, q), lookupP_mem h, rfl⟩

theorem push_WF {s : FarmsAddRemoveStreamMap R} {k : Nat} {op : Op R}
    (h : WF s) : WF (s.push k op) := by
  obtain ⟨hA, hP, hsub, hne⟩ := h
  cases hl : lookupA k s.in_progress with
  | some op' =>
    rw [push, hl]
    refine ⟨hA, pairwise_keysP_appendPending hP, ?_, nonempty_appendPending hne⟩
    intro x hx
    rcases mem_keysP_appendPending.1 hx with rfl | hx
    · exact mem_keysA_of_lookupA hl
    · exact hsub x hx
  | none =>
    rw [push, hl]
    have hk : k ∉ keysA s.in_progress := lookupA_eq_none_iff.1 hl
    refine ⟨pairwise_keysA_insertActive hA hk, hP, ?_, hne⟩
    intro x hx
    exact mem_keysA_insertActive.2 (Or.inr (hsub x hx))

theorem contents_push_self {s : FarmsAddRemoveStreamMap R} {k : Nat} {op : Op R}
    (h : WF s) : contents (s.push k op) k = contents s k ++ [op] := by
  obtain ⟨hA, hP, hsub, hne⟩ := h
  cases hl : lookupA k s.in_progress with
  | some op' =>
    rw [push, hl]
    show opsForA k s.in_progress ++ queueFor k (appendPending k op s.farms_to_add_remove) = _
    rw [queueFor_appendPending_self hP, contents, List.append_assoc]
  | none =>
    rw [push, hl]
    have hk : k ∉ keysA s.in_progress := lookupA_eq_none_iff.1 hl
    have hkp : k ∉ keysP s.farms_to_add_remove := fun hm => hk (hsub k hm)
    show opsForA k (insertActive k op s.in_progress) ++ queueFor k s.farms_to_add_remove = _
    rw [opsForA_insertActive_self hk, queueFor_eq_nil_of_not_mem hkp, contents,
      opsForA_eq_nil_of_not_mem hk, queueFor_eq_nil_of_not_mem hkp]
    simp

theorem contents_push_ne {s : FarmsAddRemoveStreamMap R} {k k' : Nat} {op : Op R}
    (hne : k ≠ k') : contents (s.push k op) k' = contents s k' := by
  cases hl : lookupA k s.in_progress with
  | some op' =>
    rw [push, hl]
    show opsForA k' s.in_progress ++ queueFor k' (appendPending k op s.farms_to_add_remove) = _
    rw [queueFor_appendPending_ne hne]
    rfl
  | none =>
    rw [push, hl]
    show opsForA k' (insertActive k op s.in_progress) ++ queueFor k' s.farms_to_add_remove = _
    rw [opsForA_insertActive_ne hne]
    rfl

theorem resultsOf_append {l₁ l₂ : List (Op R)} :
    resultsOf (l₁ ++ l₂) = resultsOf l₁ ++ resultsOf l₂ := by
  simp [resultsOf]

theorem winner_facts {pre₀ post : List (Nat × Op R)} {k0 : Nat} {op0 : Op R}
    (hA : List.Pairwise (· < ·) (keysA (pre₀ ++ (k0, op0) :: post))) :
    k0 ∉ keysA pre₀ ∧ k0 ∉ keysA post ∧ (∀ x ∈ keysA post, k0 < x) ∧
      (∀ x ∈ keysA pre₀, x < k0) := by
  rw [keysA_append, keysA_cons, List.pairwise_append] at hA
  obtain ⟨h₁, h₂, h₃⟩ := hA
  rw [List.pairwise_cons] at h₂
  refine ⟨?_, ?_, h₂.1, ?_⟩
  · intro hm
    exact lt_irrefl k0 (h₃ k0 hm k0 (List.mem_cons_self _ _))
  · intro hm
    exact lt_irrefl k0 (h₂.1 k0 hm)
  · intro x hx
    exact h₃ x hx k0 (List.mem_cons_self _ _)

theorem poll_WF {s : FarmsAddRemoveStreamMap R} (h : WF s) :
    WF (poll_next_entry s).2 := by
  obtain ⟨hA, hP, hsub, hne⟩ := h
  by_cases hterm : (s.in_progress.isEmpty && s.farms_to_add_remove.isEmpty) = true
  · rw [poll_next_entry, if_pos hterm]
    exact ⟨hA, hP, hsub, hne⟩
  · rw [poll_next_entry, if_neg hterm]
    cases hpp : pollPass s.in_progress with
    | exhausted polled =>
      obtain ⟨hpol, _⟩ := pollPass_exhausted_eq hpp
      subst hpol
      refine ⟨?_, hP, ?_, hne⟩
      · rw [keysA_map_dec]
        exact hA
      · intro x hx
        rw [keysA_map_dec]
        exact hsub x hx
    | completed k0 r pre post =>
      obtain ⟨pre₀, hl, hpre, hrem⟩ := pollPass_completed_eq hpp
      have hAl := hA
      rw [hl] at hAl
      obtain ⟨hk0pre, hk0post, hpostlt, hprelt⟩ := winner_facts hAl
      have hkeys : keysA (pre ++ (k0, Op.mk 0 r) :: post) =
          keysA (pre₀ ++ (k0, Op.mk 0 r) :: post) := by
        rw [keysA_append, keysA_append, hpre, keysA_map_dec]
      cases hq : lookupP k0 s.farms_to_add_remove with
      | none =>
        simp only [handleCompletion, hq]
        have hnp : k0 ∉ keysP s.farms_to_add_remove := lookupP_eq_none_iff.1 hq
        rw [erasePending_of_not_mem hnp]
        refine ⟨?_, hP, ?_, hne⟩
        · have hsubl : (keysA (pre ++ post)).Sublist
              (keysA (pre₀ ++ (k0, Op.mk 0 r) :: post)) := by
            rw [keysA_append, keysA_append, keysA_cons, hpre, keysA_map_dec]
            exact (List.sublist_cons_self _ _).append_left _
          exact hAl.sublist hsubl
        · intro x hx
          have hxa := hsub x hx
          rw [hl, keysA_append, keysA_cons] at hxa
          have hxne : x ≠ k0 := fun he => hnp (he ▸ hx)
          rw [keysA_append, hpre, keysA_map_dec]
          rcases List.mem_append.1 hxa with hxa | hxa
          · exact List.mem_append.2 (Or.inl hxa)
          · rcases List.mem_cons.1 hxa with he | hxa
            · exact absurd he hxne
            · exact List.mem_append.2 (Or.inr hxa)
      | some q =>
        cases q with
        | nil => exact absurd (hne _ (lookupP_mem hq)) (by simp)
        | cons op₀ restQ =>
          simp only [handleCompletion, hq]
          have hkeys2 : keysA (pre ++ (k0, op₀) :: post) =
              keysA (pre₀ ++ (k0, Op.mk 0 r) :: post) := by
            rw [keysA_append, keysA_append, keysA_cons, keysA_cons, hpre, keysA_map_dec]
          by_cases hrq : restQ.isEmpty
          · simp only [hrq, if_pos]
            refine ⟨?_, pairwise_keysP_erasePending hP, ?_, ?_⟩
            · rw [hkeys2]
              exact hAl
            · intro x hx
              have hx' := hsub x (mem_keysP_erasePending hx)
              rw [hl] at hx'
              rw [hkeys2]
              exact hx'
            · intro p hp
              exact hne p ((erasePending_sublist _).subset hp)
          · simp only [hrq, if_neg, Bool.false_eq_true, not_false_iff]
            refine ⟨?_, ?_, ?_, ?_⟩
            · rw [hkeys2]
              exact hAl
            · rw [keysP_setPending]
              exact hP
            · intro x hx
              rw [keysP_setPending] at hx
              have hx' := hsub x hx
              rw [hl] at hx'
              rw [hkeys2]
              exact hx'
            · intro p hp
              rcases mem_setPending hp with hp | hp
              · exact hne p hp
              · rw [hp]
                intro hc
                rw [hc] at hrq
                simp at hrq

theorem poll_conserve {s : FarmsAddRemoveStreamMap R} (h : WF s) (k : Nat) :
    outFor k (yieldOf (poll_next_entry s).1) ++
      resultsOf (contents (poll_next_entry s).2 k) = resultsOf (contents s k) := by
  obtain ⟨hA, hP, hsub, hne⟩ := h
  by_cases hterm : (s.in_progress.isEmpty && s.farms_to_add_remove.isEmpty) = true
  · rw [poll_next_entry, if_pos hterm]
    simp [yieldOf, outFor]
  · rw [poll_next_entry, if_neg hterm]
    cases hpp : pollPass s.in_progress with
    | exhausted polled =>
      obtain ⟨hpol, _⟩ := pollPass_exhausted_eq hpp
      subst hpol
      simp only [yieldOf, outFor_nil, List.nil_append, contents]
      rw [opsForA_map_dec, resultsOf_append, resultsOf_map_dec, resultsOf_append]
    | completed k0 r pre post =>
      obtain ⟨pre₀, hl, hpre, hrem⟩ := pollPass_completed_eq hpp
      have hAl := hA
      rw [hl] at hAl
      obtain ⟨hk0pre, hk0post, hpostlt, hprelt⟩ := winner_facts hAl
      have hpreK : ∀ k', k' ≠ k0 →
          resultsOf (opsForA k' pre) = resultsOf (opsForA k' pre₀) := by
        intro k' _
        rw [hpre, opsForA_map_dec, resultsOf_map_dec]
      have hopsl_self : opsForA k0 s.in_progress = [Op.mk 0 r] := by
        rw [hl, opsForA_append, opsForA_cons_self, opsForA_eq_nil_of_not_mem hk0pre,
          opsForA_eq_nil_of_not_mem hk0post, List.nil_append]
      have hopsl_ne : ∀ k', k' ≠ k0 →
          opsForA k' s.in_progress = opsForA k' pre₀ ++ opsForA k' post := by
        intro k' hk'
        rw [hl, opsForA_append, opsForA_cons_ne (fun he => hk' he.symm)]
      have hpreN : k0 ∉ keysA pre := by
        rw [hpre, keysA_map_dec]
        exact hk0pre
      cases hq : lookupP k0 s.farms_to_add_remove with
      | none =>
        simp only [handleCompletion, hq]
        have hnp : k0 ∉ keysP s.farms_to_add_remove := lookupP_eq_none_iff.1 hq
        rw [erasePending_of_not_mem hnp]
        by_cases hk : k = k0
        · subst hk
          simp only [yieldOf, outFor_single_self, contents]
          rw [queueFor_eq_nil_of_not_mem hnp, opsForA_append,
            opsForA_eq_nil_of_not_mem hpreN, opsForA_eq_nil_of_not_mem hk0post,
            hopsl_self]
          simp [resultsOf, Op.result]
        · simp only [yieldOf, outFor_single_ne (fun he => hk he.symm), List.nil_append,
            contents]
          rw [opsForA_append, hopsl_ne k hk]
          simp [resultsOf_append, hpreK k hk]
      | some q =>
        cases q with
        | nil => exact absurd (hne _ (lookupP_mem hq)) (by simp)
        | cons op₀ restQ =>
          simp only [handleCompletion, hq]
          have hqf : queueFor k0 s.farms_to_add_remove = op₀ :: restQ :=
            queueFor_eq_of_lookupP hP hq
          by_cases hrq : restQ.isEmpty
          · simp only [hrq, if_pos]
            have hrq' : restQ = [] := List.isEmpty_iff.1 hrq
            subst hrq'
            by_cases hk : k = k0
            · subst hk
              simp only [yieldOf, outFor_single_self, contents]
              rw [queueFor_eq_nil_of_not_mem (not_mem_keysP_erasePending_self hP),
                opsForA_append, opsForA_cons_self, opsForA_eq_nil_of_not_mem hpreN,
                opsForA_eq_nil_of_not_mem hk0post, hopsl_self, hqf]
              simp [resultsOf, Op.result]
            · simp only [yieldOf, outFor_single_ne (fun he => hk he.symm),
                List.nil_append, contents]
              rw [queueFor_erasePending_ne (fun he => hk he.symm), opsForA_append,
                opsForA_cons_ne (fun he => hk he.symm), hopsl_ne k hk]
              simp [resultsOf_append, hpreK k hk]
          · simp only [hrq, if_neg, Bool.false_eq_true, not_false_iff]
            by_cases hk : k = k0
            · subst hk
              simp only [yieldOf, outFor_single_self, contents]
              rw [queueFor_setPending_self hP (mem_keysP_of_lookupP hq),
                opsForA_append, opsForA_cons_self, opsForA_eq_nil_of_not_mem hpreN,
                opsForA_eq_nil_of_not_mem hk0post, hopsl_self, hqf]
              simp [resultsOf, Op.result]
            · simp only [yieldOf, outFor_single_ne (fun he => hk he.symm),
                List.nil_append, contents]
              rw [queueFor_setPending_ne (fun he => hk he.symm), opsForA_append,
                opsForA_cons_ne (fun he => hk he.symm), hopsl_ne k hk]
              simp [resultsOf_append, hpreK k hk]

theorem step_WF {s : FarmsAddRemoveStreamMap R} (h : WF s) (c : Cmd R) :
    WF (step s c).1 := by
  cases c with
  | push k op => exact push_WF h
  | advance => exact poll_WF h

theorem pushedOps_cons {k : Nat} {c : Cmd R} {cs : List (Cmd R)} :
    pushedOps k (c :: cs) = pushedOps k [c] ++ pushedOps k cs := by
  cases c with
  | push k' op =>
    by_cases h : k' = k <;> simp [pushedOps, h]
  | advance => simp [pushedOps]

theorem step_conserve {s : FarmsAddRemoveStreamMap R} (h : WF s) (c : Cmd R) (k : Nat) :
    outFor k (step s c).2 ++ resultsOf (contents (step s c).1 k) =
      resultsOf (contents s k) ++ resultsOf (pushedOps k [c]) := by
  cases c with
  | push k' op =>
    simp only [step, outFor_nil, List.nil_append]
    by_cases hk : k' = k
    · subst hk
      rw [contents_push_self h, resultsOf_append]
      simp [pushedOps, resultsOf]
    · rw [contents_push_ne hk]
      simp [pushedOps, hk, resultsOf]
  | advance =>
    simp only [step]
    rw [poll_conserve h k]
    simp [pushedOps, resultsOf]

theorem run_WF {s : FarmsAddRemoveStreamMap R} (h : WF s) (cmds : List (Cmd R)) :
    WF (run s cmds).1 := by
  induction cmds generalizing s with
  | nil => exact h
  | cons c cs ih =>
    simp only [run]
    exact ih (step_WF h c)

theorem run_conserve {s : FarmsAddRemoveStreamMap R} (h : WF s) (cmds : List (Cmd R))
    (k : Nat) :
    outFor k (run s cmds).2 ++ resultsOf (contents (run s cmds).1 k) =
      resultsOf (contents s k) ++ resultsOf (pushedOps k cmds) := by
  induction cmds generalizing s with
  | nil => simp [run, outFor_nil, pushedOps, resultsOf]
  | cons c cs ih =>
    simp only [run]
    rw [outFor_append, List.append_assoc, ih (step_WF h c),
      ← List.append_assoc, step_conserve h c k, List.append_assoc,
      ← resultsOf_append, ← pushedOps_cons]

theorem WF_default : WF (default : FarmsAddRemoveStreamMap R) := by
  refine ⟨List.Pairwise.nil, List.Pairwise.nil, ?_, ?_⟩
  · intro k hk
    simp [default, keysP] at hk
  · intro p hp
    simp [default] at hp

theorem reachable_WF {s : FarmsAddRemoveStreamMap R} (h : Reachable s) : WF s := by
  induction h with
  | init => exact WF_default
  | push k op _ ih => exact push_WF ih
  | advance _ ih => exact poll_WF ih

theorem actSum_cons {p : Nat × Op R} {l : List (Nat × Op R)} :
    actSum (p :: l) = opMeasure p.2 + actSum l := by
  simp [actSum]

theorem actSum_append {l₁ l₂ : List (Nat × Op R)} :
    actSum (l₁ ++ l₂) = actSum l₁ + actSum l₂ := by
  simp [actSum]

theorem actSum_map_dec_le {l : List (Nat × Op R)} :
    actSum (l.map (fun p => (p.1, decOp p.2))) ≤ actSum l := by
  induction l with
  | nil => simp [actSum]
  | cons p rest ih =>
    rw [List.map_cons, actSum_cons, actSum_cons]
    dsimp only
    have hd : opMeasure (decOp p.2) ≤ opMeasure p.2 := by
      simp only [opMeasure, decOp]
      omega
    omega

theorem actSum_map_dec_lt {l : List (Nat × Op R)} (hne : l ≠ [])
    (h : ∀ p ∈ l, p.2.remaining ≠ 0) :
    actSum (l.map (fun p => (p.1, decOp p.2))) < actSum l := by
  cases l with
  | nil => exact absurd rfl hne
  | cons p rest =>
    rw [List.map_cons, actSum_cons, actSum_cons]
    dsimp only
    have h1 : p.2.remaining ≠ 0 := h p (List.mem_cons_self _ _)
    have hd : opMeasure (decOp p.2) < opMeasure p.2 := by
      simp only [opMeasure, decOp]
      omega
    have h2 := actSum_map_dec_le (l := rest)
    omega

theorem pendSum_cons {p : Nat × List (Op R)} {l : List (Nat × List (Op R))} :
    pendSum (p :: l) = (p.2.map opMeasure).sum + pendSum l := by
  simp [pendSum]

theorem pendSum_pop {k0 : Nat} {op₀ : Op R} {restQ : List (Op R)}
    {l : List (Nat × List (Op R))} (hq : lookupP k0 l = some (op₀ :: restQ)) :
    opMeasure op₀ +
      pendSum (if restQ.isEmpty then erasePending k0 l else setPending k0 restQ l) =
      pendSum l := by
  induction l with
  | nil => simp [lookupP] at hq
  | cons p rest ih =>
    obtain ⟨k', q⟩ := p
    by_cases he : k0 = k'
    · subst he
      rw [lookupP, if_pos rfl] at hq
      cases hq
      by_cases hrq : restQ.isEmpty
      · have hrq' : restQ = [] := List.isEmpty_iff.1 hrq
        subst hrq'
        rw [if_pos hrq, erasePending, if_pos rfl, pendSum_cons]
        simp
      · rw [if_neg hrq, setPending, if_pos rfl, pendSum_cons, pendSum_cons]
        simp [List.sum_cons]
        omega
    · rw [lookupP, if_neg he] at hq
      have := ih hq
      by_cases hrq : restQ.isEmpty
      · rw [if_pos hrq] at this ⊢
        rw [erasePending, if_neg he, pendSum_cons, pendSum_cons]
        omega
      · rw [if_neg hrq] at this ⊢
        rw [setPending, if_neg he, pendSum_cons, pendSum_cons]
        omega

theorem ip_ne_nil_of_not_terminated {s : FarmsAddRemoveStreamMap R} (h : WF s)
    (hterm : is_terminated s = false) : s.in_progress ≠ [] := by
  intro hip
  obtain ⟨hA, hP, hsub, hne⟩ := h
  rw [is_terminated, hip] at hterm
  simp at hterm
  cases hp : s.farms_to_add_remove with
  | nil =>
    rw [hp] at hterm
    simp at hterm
  | cons p rest =>
    have hm : p.1 ∈ keysP s.farms_to_add_remove := by
      rw [hp]
      cases p
      rw [keysP_cons]
      exact List.mem_cons_self _ _
    have := hsub p.1 hm
    rw [hip] at this
    simp [keysA] at this

theorem poll_measure {s : FarmsAddRemoveStreamMap R} (h : WF s)
    (hterm : is_terminated s = false) :
    smMeasure (poll_next_entry s).2 < smMeasure s := by
  have hip : s.in_progress ≠ [] := ip_ne_nil_of_not_terminated h hterm
  obtain ⟨hA, hP, hsub, hne⟩ := h
  have hcond : (s.in_progress.isEmpty && s.farms_to_add_remove.isEmpty) = false := by
    rw [is_terminated] at hterm
    exact hterm
  rw [poll_next_entry, if_neg (by rw [hcond]; simp)]
  cases hpp : pollPass s.in_progress with
  | exhausted polled =>
    obtain ⟨hpol, hrem⟩ := pollPass_exhausted_eq hpp
    subst hpol
    show smMeasure ⟨_, s.farms_to_add_remove⟩ < _
    rw [smMeasure, smMeasure]
    dsimp only
    have := actSum_map_dec_lt hip hrem
    omega
  | completed k0 r pre post =>
    obtain ⟨pre₀, hl, hpre, hrem⟩ := pollPass_completed_eq hpp
    have hold : actSum s.in_progress = actSum pre₀ + 1 + actSum post := by
      rw [hl, actSum_append, actSum_cons]
      simp [opMeasure]
      omega
    have hpredec : actSum pre ≤ actSum pre₀ := by
      rw [hpre]
      exact actSum_map_dec_le
    cases hq : lookupP k0 s.farms_to_add_remove with
    | none =>
      simp only [handleCompletion, hq]
      rw [erasePending_of_not_mem (lookupP_eq_none_iff.1 hq)]
      show smMeasure ⟨pre ++ post, s.farms_to_add_remove⟩ < _
      rw [smMeasure, smMeasure, actSum_append]
      dsimp only
      omega
    | some q =>
      cases q with
      | nil => exact absurd (hne _ (lookupP_mem hq)) (by simp)
      | cons op₀ restQ =>
        simp only [handleCompletion, hq]
        have hpop := pendSum_pop hq
        by_cases hrq : restQ.isEmpty
        · simp only [hrq, if_pos]
          rw [if_pos hrq] at hpop
          show smMeasure ⟨pre ++ (k0, op₀) :: post, _⟩ < _
          rw [smMeasure, smMeasure, actSum_append, actSum_cons]
          dsimp only
          omega
        · simp only [hrq, if_neg, Bool.false_eq_true, not_false_iff]
          rw [if_neg hrq] at hpop
          show smMeasure ⟨pre ++ (k0, op₀) :: post, _⟩ < _
          rw [smMeasure, smMeasure, actSum_append, actSum_cons]
          dsimp only
          omega

theorem terminated_iff {s : FarmsAddRemoveStreamMap R} :
    is_terminated s = true ↔ s.in_progress = [] ∧ s.farms_to_add_remove = [] := by
  rw [is_terminated]
  simp [List.isEmpty_iff]

theorem contents_terminated {s : FarmsAddRemoveStreamMap R}
    (h : is_terminated s = true) (k : Nat) : contents s k = [] := by
  obtain ⟨h1, h2⟩ := terminated_iff.1 h
  rw [contents, h1, h2]
  rfl

theorem poll_terminated {s : FarmsAddRemoveStreamMap R} (h : is_terminated s = true) :
    poll_next_entry s = (Poll.ended, s) := by
  rw [is_terminated] at h
  rw [poll_next_entry, if_pos h]

theorem drainN_terminated {s : FarmsAddRemoveStreamMap R}
    (h : is_terminated s = true) (n : Nat) : drainN n s = ([], s) := by
  induction n with
  | zero => rfl
  | succ m ih =>
    rw [drainN, poll_terminated h]
    simp [ih]

theorem one_le_smMeasure_of_not_terminated {s : FarmsAddRemoveStreamMap R} (h : WF s)
    (ht : is_terminated s = false) : 1 ≤ smMeasure s := by
  have hip := ip_ne_nil_of_not_terminated h ht
  cases hl : s.in_progress with
  | nil => exact absurd hl hip
  | cons p rest =>
    rw [smMeasure, hl, actSum_cons]
    simp only [opMeasure]
    omega

theorem drain_correct {n : Nat} :
    ∀ {s : FarmsAddRemoveStreamMap R}, WF s → smMeasure s ≤ n →
      is_terminated (drainN n s).2 = true ∧
      ∀ k, outFor k (drainN n s).1 = resultsOf (contents s k) := by
  induction n with
  | zero =>
    intro s h hm
    have hterm : is_terminated s = true := by
      cases hb : is_terminated s with
      | true => rfl
      | false =>
        have := one_le_smMeasure_of_not_terminated h hb
        omega
    refine ⟨hterm, fun k => ?_⟩
    rw [drainN, outFor_nil, contents_terminated hterm k]
    rfl
  | succ m ih =>
    intro s h hm
    cases hb : is_terminated s with
    | true =>
      rw [drainN_terminated hb]
      refine ⟨hb, fun k => ?_⟩
      rw [outFor_nil, contents_terminated hb k]
      rfl
    | false =>
      have hlt := poll_measure h hb
      have hWF' := poll_WF h
      have hcons := poll_conserve h
      rw [drainN]
      cases hpoll : poll_next_entry s with
      | mk p1 s' =>
        rw [hpoll] at hlt hWF'
        have hm' : smMeasure s' ≤ m := by
          change smMeasure (p1, s').2 < smMeasure s at hlt
          dsimp at hlt
          omega
        have hWF'' : WF s' := hWF'
        obtain ⟨ht, hout⟩ := ih hWF'' hm'
        cases p1 with
        | ready k0 r =>
          refine ⟨ht, fun k => ?_⟩
          have hc := hcons k
          rw [hpoll] at hc
          dsimp [yieldOf] at hc
          show outFor k ((k0, r) :: (drainN m s').1) = _
          rw [← List.singleton_append, outFor_append, hout k, hc]
        | ended =>
          refine ⟨ht, fun k => ?_⟩
          have hc := hcons k
          rw [hpoll] at hc
          dsimp [yieldOf] at hc
          rw [outFor_nil, List.nil_append] at hc
          show outFor k (drainN m s').1 = _
          rw [hout k, hc]
        | suspended =>
          refine ⟨ht, fun k => ?_⟩
          have hc := hcons k
          rw [hpoll] at hc
          dsimp [yieldOf] at hc
          rw [outFor_nil, List.nil_append] at hc
          show outFor k (drainN m s').1 = _
          rw [hout k, hc]

theorem opsForA_length_le_one {k : Nat} {l : List (Nat × Op R)}
    (hs : List.Pairwise (· < ·) (keysA l)) : (opsForA k l).length ≤ 1 := by
  induction l with
  | nil => simp [opsForA]
  | cons p rest ih =>
    obtain ⟨k', op⟩ := p
    rw [keysA_cons, List.pairwise_cons] at hs
    by_cases he : k' = k
    · subst he
      have hk : k' ∉ keysA rest := fun hm => lt_irrefl k' (hs.1 k' hm)
      rw [opsForA_cons_self, opsForA_eq_nil_of_not_mem hk]
      simp
    · rw [opsForA_cons_ne he]
      exact ih hs.2

theorem lookupA_cons_self {k : Nat} {op : Op R} {l : List (Nat × Op R)} :
    lookupA k ((k, op) :: l) = some op := by
  rw [lookupA, if_pos rfl]

theorem lookupA_append_of_not_mem {k : Nat} {l₁ l₂ : List (Nat × Op R)}
    (h : k ∉ keysA l₁) : lookupA k (l₁ ++ l₂) = lookupA k l₂ := by
  induction l₁ with
  | nil => rfl
  | cons p rest ih =>
    obtain ⟨k', op⟩ := p
    rw [keysA_cons, List.mem_cons] at h
    push_neg at h
    rw [List.cons_append, lookupA, if_neg h.1]
    exact ih h.2

theorem lookupP_setPending_self {k : Nat} {q : List (Op R)}
    {l : List (Nat × List (Op R))} (hm : k ∈ keysP l) :
    lookupP k (setPending k q l) = some q := by
  induction l with
  | nil => simp [keysP] at hm
  | cons p rest ih =>
    obtain ⟨k', q'⟩ := p
    rw [keysP_cons, List.mem_cons] at hm
    by_cases he : k = k'
    · subst he
      rw [setPending, if_pos rfl, lookupP, if_pos rfl]
    · rw [setPending, if_neg he, lookupP, if_neg he]
      exact ih (hm.resolve_left he)

theorem poll_ready_inv {s : FarmsAddRemoveStreamMap R} {k : Nat} {r : R}
    (h : (poll_next_entry s).1 = Poll.ready k r) :
    ∃ pre post, pollPass s.in_progress = .completed k r pre post ∧
      (poll_next_entry s).2 =
        ⟨(handleCompletion s.farms_to_add_remove k pre post).1,
         (handleCompletion s.farms_to_add_remove k pre post).2⟩ := by
  by_cases hterm : (s.in_progress.isEmpty && s.farms_to_add_remove.isEmpty) = true
  · rw [poll_next_entry, if_pos hterm] at h
    simp at h
  · rw [poll_next_entry, if_neg hterm] at h ⊢
    cases hpp : pollPass s.in_progress with
    | completed k0 r0 pre post =>
      rw [hpp] at h
      simp at h
      obtain ⟨hk, hr⟩ := h
      subst hk
      subst hr
      exact ⟨pre, post, rfl, rfl⟩
    | exhausted polled =>
      rw [hpp] at h
      simp at h

/-! ## Claim theorems for the multiplexer -/

/-- C1: for every key, the results yielded by any run from the empty
multiplexer are exactly an order-preserving prefix of the results of the
operations pushed under that key (strict per-key FIFO: what has been yielded
plus what is still held, in order, equals the push sequence), and in every
such run's final state the active map holds at most one operation per key. -/
theorem per_key_fifo_and_unique_active (cmds : List (Cmd R)) (k : Nat) :
    outFor k (run FarmsAddRemoveStreamMap.default cmds).2 ++
        resultsOf (contents (run FarmsAddRemoveStreamMap.default cmds).1 k) =
      resultsOf (pushedOps k cmds) ∧
    outFor k (run FarmsAddRemoveStreamMap.default cmds).2 =
      (resultsOf (pushedOps k cmds)).take
        (outFor k (run FarmsAddRemoveStreamMap.default cmds).2).length ∧
    (opsForA k (run FarmsAddRemoveStreamMap.default cmds).1.in_progress).length ≤ 1 := by
  have h0 : contents (FarmsAddRemoveStreamMap.default : FarmsAddRemoveStreamMap R) k = [] :=
    contents_terminated (by rfl) k
  have h1 := run_conserve WF_default cmds k
  rw [h0] at h1
  rw [show resultsOf ([] : List (Op R)) = [] from rfl, List.nil_append] at h1
  refine ⟨h1, ?_, ?_⟩
  · rw [← h1, List.take_left]
  · exact opsForA_length_le_one (run_WF WF_default cmds).1

/-- C2: one advance invocation emits exactly one key/result pair when it
reports a completion; the completed operation was a ready (zero polls
remaining) entry of the active map whose key is the least among all ready
keys, and every other ready operation is left untouched in the active map
rather than also being emitted. -/
theorem advance_one_result_min_ready_key {s : FarmsAddRemoveStreamMap R} (h : WF s)
    {k : Nat} {r : R} (hr : (poll_next_entry s).1 = Poll.ready k r) :
    yieldOf (poll_next_entry s).1 = [(k, r)] ∧
    (k, Op.mk 0 r) ∈ s.in_progress ∧
    (∀ p ∈ s.in_progress, p.2.remaining = 0 → k ≤ p.1) ∧
    (∀ p ∈ s.in_progress, p.2.remaining = 0 → p.1 ≠ k →
      p ∈ (poll_next_entry s).2.in_progress) := by
  obtain ⟨pre, post, hpp, hst⟩ := poll_ready_inv hr
  obtain ⟨pre₀, hl, hpre, hrem⟩ := pollPass_completed_eq hpp
  have hAl := h.1
  rw [hl] at hAl
  obtain ⟨hk0pre, hk0post, hpostlt, hprelt⟩ := winner_facts hAl
  have hmempost : ∀ p ∈ s.in_progress, p.2.remaining = 0 → p.1 ≠ k → p ∈ post := by
    intro p hp h0 hk
    rw [hl] at hp
    rcases List.mem_append.1 hp with hp | hp
    · exact absurd h0 (hrem p hp)
    · rcases List.mem_cons.1 hp with rfl | hp
      · exact absurd rfl hk
      · exact hp
  refine ⟨by rw [hr]; rfl, ?_, ?_, ?_⟩
  · rw [hl]
    exact List.mem_append.2 (Or.inr (List.mem_cons_self _ _))
  · intro p hp h0
    rw [hl] at hp
    rcases List.mem_append.1 hp with hp | hp
    · exact absurd h0 (hrem p hp)
    · rcases List.mem_cons.1 hp with rfl | hp
      · exact le_refl _
      · exact le_of_lt (hpostlt p.1 (List.mem_map.2 ⟨p, hp, rfl⟩))
  · intro p hp h0 hk
    have hpost := hmempost p hp h0 hk
    rw [hst]
    cases hq : lookupP k s.farms_to_add_remove with
    | none =>
      simp only [handleCompletion, hq]
      exact List.mem_append.2 (Or.inr hpost)
    | some q =>
      cases q with
      | nil =>
        simp only [handleCompletion, hq]
        exact List.mem_append.2 (Or.inr hpost)
      | cons op₀ restQ =>
        simp only [handleCompletion, hq]
        exact List.mem_append.2 (Or.inr (List.mem_cons_of_mem _ hpost))

/-- C3: in every state reachable from the empty multiplexer, every key of the
pending map is also a key of the active map, and no pending entry holds an
empty queue. -/
theorem reachable_pending_invariants {s : FarmsAddRemoveStreamMap R}
    (h : Reachable s) :
    (∀ k ∈ keysP s.farms_to_add_remove, k ∈ keysA s.in_progress) ∧
    (∀ p ∈ s.farms_to_add_remove, p.2 ≠ []) :=
  ⟨(reachable_WF h).2.2.1, (reachable_WF h).2.2.2⟩

/-- C4: when the advance step completes key `k`'s active operation: if `k`'s
pending queue is `op₀ :: restQ`, then `op₀` is installed unchanged (not
polled) as `k`'s new active operation, and `k` is dropped from the pending
map when `restQ` is empty, else its queue becomes `restQ`; if `k` has no
pending queue, `k` is removed from the active map and the pending map is
unchanged. -/
theorem advance_completion_handling {s : FarmsAddRemoveStreamMap R} (h : WF s)
    {k : Nat} {r : R} (hr : (poll_next_entry s).1 = Poll.ready k r) :
    (∀ op₀ restQ, lookupP k s.farms_to_add_remove = some (op₀ :: restQ) →
      lookupA k (poll_next_entry s).2.in_progress = some op₀ ∧
      (restQ = [] → k ∉ keysP (poll_next_entry s).2.farms_to_add_remove) ∧
      (restQ ≠ [] → lookupP k (poll_next_entry s).2.farms_to_add_remove = some restQ)) ∧
    (lookupP k s.farms_to_add_remove = none →
      (poll_next_entry s).2.farms_to_add_remove = s.farms_to_add_remove ∧
      k ∉ keysA (poll_next_entry s).2.in_progress) := by
  obtain ⟨pre, post, hpp, hst⟩ := poll_ready_inv hr
  obtain ⟨pre₀, hl, hpre, hrem⟩ := pollPass_completed_eq hpp
  have hAl := h.1
  rw [hl] at hAl
  obtain ⟨hk0pre, hk0post, hpostlt, hprelt⟩ := winner_facts hAl
  have hpreN : k ∉ keysA pre := by
    rw [hpre, keysA_map_dec]
    exact hk0pre
  constructor
  · intro op₀ restQ hq
    rw [hst]
    simp only [handleCompletion, hq]
    refine ⟨?_, ?_, ?_⟩
    · rw [lookupA_append_of_not_mem hpreN, lookupA_cons_self]
    · intro hrq
      subst hrq
      simp only [List.isEmpty_nil, if_pos]
      exact not_mem_keysP_erasePending_self h.2.1
    · intro hrq
      rw [if_neg (by simpa [List.isEmpty_iff] using hrq)]
      exact lookupP_setPending_self (mem_keysP_of_lookupP hq)
  · intro hq
    rw [hst]
    simp only [handleCompletion, hq]
    refine ⟨erasePending_of_not_mem (lookupP_eq_none_iff.1 hq), ?_⟩
    rw [keysA_append]
    intro hm
    rcases List.mem_append.1 hm with hm | hm
    · exact hpreN hm
    · exact hk0post hm

/-- C5: `push(k, op)` never fails, and: if `k` is not active, `op` becomes
`k`'s active entry immediately and the pending map is untouched; if `k` is
active, the active map is unchanged and `op` is appended to the tail of `k`'s
pending queue (created if absent), other keys' queues unchanged. -/
theorem push_spec {s : FarmsAddRemoveStreamMap R} (h : WF s) (k : Nat) (op : Op R) :
    (lookupA k s.in_progress = none →
      lookupA k (s.push k op).in_progress = some op ∧
      (s.push k op).farms_to_add_remove = s.farms_to_add_remove) ∧
    (∀ op', lookupA k s.in_progress = some op' →
      (s.push k op).in_progress = s.in_progress ∧
      queueFor k (s.push k op).farms_to_add_remove =
        queueFor k s.farms_to_add_remove ++ [op] ∧
      (∀ k', k' ≠ k → queueFor k' (s.push k op).farms_to_add_remove =
        queueFor k' s.farms_to_add_remove)) := by
  constructor
  · intro hl
    rw [push, hl]
    exact ⟨lookupA_insertActive_self (lookupA_eq_none_iff.1 hl), rfl⟩
  · intro op' hl
    rw [push, hl]
    refine ⟨rfl, ?_, ?_⟩
    · exact queueFor_appendPending_self h.2.1
    · intro k' hk'
      exact queueFor_appendPending_ne (fun he => hk' he.symm)

/-- C6: after any command sequence from the empty multiplexer, advancing
`smMeasure` more times drains it: the final state is idle, and for every key
the results emitted during the whole run plus the drain are exactly the
pushed operations' results, in order, each exactly once (none duplicated or
lost); moreover an advance invoked on an idle multiplexer signals
end-of-sequence immediately, returning the state unchanged rather than
suspending. -/
theorem drain_to_idle (cmds : List (Cmd R)) (k : Nat) :
    is_terminated (drainN
      (smMeasure (run FarmsAddRemoveStreamMap.default cmds).1)
      (run FarmsAddRemoveStreamMap.default cmds).1).2 = true ∧
    outFor k (run FarmsAddRemoveStreamMap.default cmds).2 ++
      outFor k (drainN
        (smMeasure (run FarmsAddRemoveStreamMap.default cmds).1)
        (run FarmsAddRemoveStreamMap.default cmds).1).1 =
      resultsOf (pushedOps k cmds) ∧
    (∀ s : FarmsAddRemoveStreamMap R, is_terminated s = true →
      poll_next_entry s = (Poll.ended, s)) := by
  have hWF := run_WF (WF_default (R := R)) cmds
  obtain ⟨ht, hout⟩ := drain_correct hWF le_rfl
  refine ⟨ht, ?_, fun s hs => poll_terminated hs⟩
  rw [hout k]
  have h1 := run_conserve (WF_default (R := R)) cmds k
  rw [contents_terminated (s := (FarmsAddRemoveStreamMap.default : FarmsAddRemoveStreamMap R))
    (by rfl) k] at h1
  rw [show resultsOf ([] : List (Op R)) = [] from rfl, List.nil_append] at h1
  exact h1

/-- C7: `is_terminated` returns true exactly when both the active map and the
pending map are empty in the state it is applied to; it is a pure function of
the current state (re-evaluated fresh on each state, not latched). -/
theorem is_terminated_iff_both_empty (s : FarmsAddRemoveStreamMap R) :
    is_terminated s = true ↔
      s.in_progress = [] ∧ s.farms_to_add_remove = [] :=
  terminated_iff

/-- C8: an idle multiplexer is indistinguishable from a freshly constructed
one: every subsequent sequence of pushes and advances produces the same final
state and the same emitted results. -/
theorem idle_equals_fresh {s : FarmsAddRemoveStreamMap R}
    (h : is_terminated s = true) :
    ∀ cmds : List (Cmd R), run s cmds = run FarmsAddRemoveStreamMap.default cmds := by
  obtain ⟨h1, h2⟩ := terminated_iff.1 h
  intro cmds
  have hs : s = FarmsAddRemoveStreamMap.default := by
    cases s
    simp only at h1 h2
    rw [h1, h2]
    rfl
  rw [hs]

/-- Witness for C2 at a concrete state with two simultaneously ready keys. -/
theorem advance_one_result_min_ready_key_witness :
    WF (⟨[(1, Op.mk 0 10), (2, Op.mk 0 20)], []⟩ : FarmsAddRemoveStreamMap Nat) ∧
    (poll_next_entry
      (⟨[(1, Op.mk 0 10), (2, Op.mk 0 20)], []⟩ : FarmsAddRemoveStreamMap Nat)).1 =
        Poll.ready 1 10 ∧
    (∀ p ∈ ([(1, Op.mk 0 10), (2, Op.mk 0 20)] : List (Nat × Op Nat)),
      p.2.remaining = 0 → 1 ≤ p.1) ∧
    (2, Op.mk 0 20) ∈ (poll_next_entry
      (⟨[(1, Op.mk 0 10), (2, Op.mk 0 20)], []⟩ :
        FarmsAddRemoveStreamMap Nat)).2.in_progress := by
  have hWF : WF (⟨[(1, Op.mk 0 10), (2, Op.mk 0 20)], []⟩ :
      FarmsAddRemoveStreamMap Nat) := by
    unfold WF
    refine ⟨?_, ?_, ?_, ?_⟩ <;> decide
  refine ⟨hWF, rfl, (advance_one_result_min_ready_key hWF rfl).2.2.1, ?_⟩
  exact (advance_one_result_min_ready_key hWF rfl).2.2.2 (2, Op.mk 0 20)
    (by decide) rfl (by decide)

/-- Witness for C3 at a concrete reachable state with pending work. -/
theorem reachable_pending_invariants_witness :
    (∀ k ∈ keysP (((FarmsAddRemoveStreamMap.default :
        FarmsAddRemoveStreamMap Nat).push 1 (Op.mk 1 5)).push 1
        (Op.mk 0 6)).farms_to_add_remove,
      k ∈ keysA (((FarmsAddRemoveStreamMap.default :
        FarmsAddRemoveStreamMap Nat).push 1 (Op.mk 1 5)).push 1
        (Op.mk 0 6)).in_progress) ∧
    (∀ p ∈ (((FarmsAddRemoveStreamMap.default :
        FarmsAddRemoveStreamMap Nat).push 1 (Op.mk 1 5)).push 1
        (Op.mk 0 6)).farms_to_add_remove, p.2 ≠ []) :=
  reachable_pending_invariants
    (Reachable.push 1 (Op.mk 0 6) (Reachable.push 1 (Op.mk 1 5) Reachable.init))

/-- Witness for C4 at a concrete state whose winner has one queued op. -/
theorem advance_completion_handling_witness :
    WF (⟨[(1, Op.mk 0 7)], [(1, [Op.mk 2 8])]⟩ : FarmsAddRemoveStreamMap Nat) ∧
    (poll_next_entry (⟨[(1, Op.mk 0 7)], [(1, [Op.mk 2 8])]⟩ :
      FarmsAddRemoveStreamMap Nat)).1 = Poll.ready 1 7 ∧
    lookupA 1 (poll_next_entry (⟨[(1, Op.mk 0 7)], [(1, [Op.mk 2 8])]⟩ :
      FarmsAddRemoveStreamMap Nat)).2.in_progress = some (Op.mk 2 8) ∧
    1 ∉ keysP (poll_next_entry (⟨[(1, Op.mk 0 7)], [(1, [Op.mk 2 8])]⟩ :
      FarmsAddRemoveStreamMap Nat)).2.farms_to_add_remove := by
  have hWF : WF (⟨[(1, Op.mk 0 7)], [(1, [Op.mk 2 8])]⟩ :
      FarmsAddRemoveStreamMap Nat) := by
    unfold WF
    refine ⟨?_, ?_, ?_, ?_⟩ <;> decide
  exact ⟨hWF, rfl, ((advance_completion_handling hWF rfl).1 _ _ rfl).1,
    ((advance_completion_handling hWF rfl).1 _ _ rfl).2.1 rfl⟩

/-- Witness for C5 at a concrete state, exercising the queueing branch. -/
theorem push_spec_witness :
    WF (⟨[(1, Op.mk 0 3)], []⟩ : FarmsAddRemoveStreamMap Nat) ∧
    lookupA 1 (⟨[(1, Op.mk 0 3)], []⟩ :
      FarmsAddRemoveStreamMap Nat).in_progress = some (Op.mk 0 3) ∧
    ((⟨[(1, Op.mk 0 3)], []⟩ : FarmsAddRemoveStreamMap Nat).push 1
      (Op.mk 1 4)).in_progress =
      (⟨[(1, Op.mk 0 3)], []⟩ : FarmsAddRemoveStreamMap Nat).in_progress ∧
    queueFor 1 ((⟨[(1, Op.mk 0 3)], []⟩ : FarmsAddRemoveStreamMap Nat).push 1
        (Op.mk 1 4)).farms_to_add_remove =
      queueFor 1 (⟨[(1, Op.mk 0 3)], []⟩ :
        FarmsAddRemoveStreamMap Nat).farms_to_add_remove ++ [Op.mk 1 4] := by
  have hWF : WF (⟨[(1, Op.mk 0 3)], []⟩ : FarmsAddRemoveStreamMap Nat) := by
    unfold WF
    refine ⟨?_, ?_, ?_, ?_⟩ <;> decide
  exact ⟨hWF, rfl, ((push_spec hWF 1 (Op.mk 1 4)).2 _ rfl).1,
    ((push_spec hWF 1 (Op.mk 1 4)).2 _ rfl).2.1⟩

/-- Witness for C8 at a state drained to idle, then refilled. -/
theorem idle_equals_fresh_witness :
    is_terminated (drainN 1 (⟨[(0, Op.mk 0 3)], []⟩ :
      FarmsAddRemoveStreamMap Nat)).2 = true ∧
    run (drainN 1 (⟨[(0, Op.mk 0 3)], []⟩ : FarmsAddRemoveStreamMap Nat)).2
        [Cmd.push 5 (Op.mk 0 9), Cmd.advance] =
      run FarmsAddRemoveStreamMap.default [Cmd.push 5 (Op.mk 0 9), Cmd.advance] :=
  ⟨by decide, idle_equals_fresh (by decide) _⟩

end Subspace.FarmsAddRemoveStreamMap

/-! ## Claim theorems for the pallet-domains and data-retrieval code -/

namespace Subspace.PalletDomains

/-- C9: `nominator_position` returns `none` exactly when one of the
`fetch_position_data` early exits fires: no deposit record, no operator
record, no staking summary for the operator's current domain, a share-price
computation error, or zero current total shares; in every other case it
returns `some` position. -/
theorem nominator_position_none_iff (ctx : Ctx) (oid : OperatorId)
    (acct : AccountId) :
    nominator_position ctx oid acct = none ↔
      (ctx.deposits oid acct = none ∨
       ctx.operators oid = none ∨
       ∃ op, ctx.operators oid = some op ∧
         (ctx.domainStakingSummary op.current_domain_id = none ∨
          (∃ ss, ctx.domainStakingSummary op.current_domain_id = some ss ∧
            ∃ e, ctx.current_share_price oid op ss = Except.error e) ∨
          op.current_total_shares = 0)) := by
  cases hd : ctx.deposits oid acct with
  | none => simp [nominator_position, fetch_position_data, hd]
  | some dep =>
    cases ho : ctx.operators oid with
    | none => simp [nominator_position, fetch_position_data, hd, ho]
    | some op =>
      cases hs : ctx.domainStakingSummary op.current_domain_id with
      | none => simp [nominator_position, fetch_position_data, hd, ho, hs]
      | some ss =>
        cases hcsp : ctx.current_share_price oid op ss with
        | error e =>
          simp [nominator_position, fetch_position_data, hd, ho, hs, hcsp,
            Except.toOption]
        | ok sp =>
          by_cases hz : op.current_total_shares = 0
          · simp [nominator_position, fetch_position_data, hd, ho, hs, hcsp,
              Except.toOption, hz]
          · simp [nominator_position, fetch_position_data, hd, ho, hs, hcsp,
              Except.toOption, hz]

end Subspace.PalletDomains

namespace Subspace.DataRetrieval

theorem streamIterThen_eq_map {α β : Type} (xs : List α) (f : α → β) :
    streamIterThen xs f = xs.map f := by
  induction xs with
  | nil => rfl
  | cons x rest ih => rw [streamIterThen, ih, List.map_cons]

/-- C10: `get_pieces_individually` always returns `Ok`, and the returned
stream yields exactly one element per input index (duplicates included), in
input order, pairing each index with `get_piece` applied to it. -/
theorem get_pieces_individually_spec {Piece : Type}
    (get_piece : PieceIndex → PieceResult Piece)
    (piece_indices : List PieceIndex) :
    get_pieces_individually get_piece piece_indices =
      Except.ok (streamIterThen piece_indices (fun i => (i, get_piece i))) ∧
    (streamIterThen piece_indices (fun i => (i, get_piece i))).length =
      piece_indices.length ∧
    ∀ n : Nat, (streamIterThen piece_indices (fun i => (i, get_piece i)))[n]? =
      piece_indices[n]?.map (fun i => (i, get_piece i)) := by
  refine ⟨rfl, ?_, ?_⟩
  · rw [streamIterThen_eq_map, List.length_map]
  · intro n
    rw [streamIterThen_eq_map]
    simp

end Subspace.DataRetrieval
